import Mathlib

/-!
Verification development for the OSM XML codec module of the osmnx
repository (files osmnx/_osm_xml.py and osmnx/settings.py).

The Python source is shallowly embedded as executable Lean definitions:

* the SAX streaming content handler (class _OSMContentHandler) becomes a
  pure step function processEvent over an explicit handler state; Python
  reference aliasing between self._element and the appended elements list
  is modelled with a store of elements addressed by index;
* the way reconstruction pipeline (_get_unique_nodes_ordered_from_way and
  _append_nodes_as_edge_attrs) becomes functions over edge lists, with
  networkx topological_sort modelled by Kahn's algorithm per its contract
  (any valid linearization; exceptions become Except.error), and
  utils_graph.get_largest_component (whose source is outside this module)
  modelled from the spec as the largest weakly connected component with
  ties broken by the first discovered component;
* the writer (_save_graph_xml and helpers) becomes a function from node
  and edge tables to an XML document value, with pandas cells modelled by
  an explicit Cell type, NaN as Cell.na, and per-row astype(str) plus
  dropna by cellStr.

Machine floats in the source (lat and lon values) are modelled as exact
rationals; decimal text rendering of numbers is toString, which no claim
depends on.
-/

namespace OsmXml

/-- First-match association lookup, the model of Python dict indexing. -/
def alookup {α : Type} (k : String) : List (String × α) → Option α
  | [] => none
  | (k2, v) :: rest => if k2 = k then some v else alookup k rest

/-- Insert or overwrite a key in an association list, keeping the original
position of an existing key, the model of Python dict update for one key. -/
def upsert {α : Type} (k : String) (v : α) : List (String × α) → List (String × α)
  | [] => [(k, v)]
  | (k2, v2) :: rest => if k2 = k then (k, v) :: rest else (k2, v2) :: upsert k v rest

/-- Deduplicate keeping the first occurrence of each element, preserving
order; auxiliary recursion carrying the set of already seen elements. -/
def dedupKeepFirstAux {α : Type} [DecidableEq α] (seen : List α) : List α → List α
  | [] => []
  | x :: xs => if x ∈ seen then dedupKeepFirstAux seen xs else x :: dedupKeepFirstAux (x :: seen) xs

/-- Deduplicate keeping first occurrences: the insertion order of nodes in
a networkx graph built by add_nodes_from over a list with duplicates. -/
def dedupKeepFirst {α : Type} [DecidableEq α] (l : List α) : List α :=
  dedupKeepFirstAux [] l

/-- Whether an Except value is a success. -/
def exOk {ε α : Type} : Except ε α → Bool
  | .ok _ => true
  | .error _ => false

/-- The success payload of an Except value, if any. -/
def exGet? {ε α : Type} : Except ε α → Option α
  | .ok a => some a
  | .error _ => none

/-- Run a fallible function over a list, stopping at the first error: the
model of a Python loop whose body may raise. -/
def eachOk {ε α β : Type} (f : α → Except ε β) : List α → Except ε (List β)
  | [] => .ok []
  | a :: rest =>
    match f a with
    | .error e => .error e
    | .ok b =>
      match eachOk f rest with
      | .error e => .error e
      | .ok bs => .ok (b :: bs)

/-- Digits-only accumulator: value of a digit string, none on a non-digit.
An empty list yields the accumulator, callers guard emptiness. -/
def digitsValAux : List Char → Nat → Option Nat
  | [], acc => some acc
  | c :: cs, acc =>
    if c.isDigit then digitsValAux cs (acc * 10 + (c.toNat - 48)) else none

/-- Model of Python int(string): optional sign then a nonempty digit run.
Exotic accepted forms (surrounding whitespace, underscores) are not
modelled; no claim depends on them. None models a raised ValueError. -/
def pyInt (s : String) : Option Int :=
  match s.data with
  | [] => none
  | '-' :: rest =>
    if rest.isEmpty then none
    else (digitsValAux rest 0).map (fun n => -(n : Int))
  | '+' :: rest =>
    if rest.isEmpty then none
    else (digitsValAux rest 0).map (fun n => (n : Int))
  | l => (digitsValAux l 0).map (fun n => (n : Int))

/-- Decimal core of Python float(string): digits, optional point, digits,
at least one digit overall. Exponent, inf and nan forms are not modelled;
no claim depends on them. The value is an exact rational. -/
def pyFloatCore (l : List Char) : Option Rat :=
  let ip := l.takeWhile Char.isDigit
  let rest := l.dropWhile Char.isDigit
  match rest with
  | [] =>
    if ip.isEmpty then none
    else (digitsValAux ip 0).map (fun n => (n : Rat))
  | '.' :: fr =>
    if fr.all Char.isDigit && !(ip.isEmpty && fr.isEmpty) then
      match digitsValAux ip 0, digitsValAux fr 0 with
      | some n, some m => some ((n : Rat) + (m : Rat) / ((10 : Rat) ^ fr.length))
      | _, _ => none
    else none
  | _ => none

/-- Model of Python float(string), signs handled as in pyInt. -/
def pyFloat (s : String) : Option Rat :=
  match s.data with
  | '-' :: rest => (pyFloatCore rest).map (fun q => -q)
  | '+' :: rest => pyFloatCore rest
  | l => pyFloatCore l

/-- A typed XML attribute value after coercion, per _OSMContentHandler:
strings stay strings, id-like fields become integers, coordinates become
floats (modelled as exact rationals). -/
inductive AttrVal : Type
  | str (s : String)
  | int (n : Int)
  | float (q : Rat)
deriving DecidableEq

/-- One parsed OSM element as the handler builds it: the Python dict with
keys type and tags, plus nodes for node and way elements, members for
relation elements, and the coerced copies of the XML attributes. -/
structure OsmElement where
  etype : String
  tags : List (String × String)
  nodes : Option (List Int)
  members : Option (List (List (String × AttrVal)))
  attrs : List (String × AttrVal)
deriving DecidableEq

/-- The handler state. store models the Python heap of element dicts; cur
is self._element as an index into the store; elementRefs models
self.object with each append sharing the dict by reference, hence an
index, exactly as Python aliasing behaves (endElement does not clear
self._element, so later nested tags can still mutate an appended dict). -/
structure HandlerState where
  store : List OsmElement
  elementRefs : List (Option Nat)
  cur : Option Nat
  header : List (String × String)
deriving DecidableEq

/-- The element self._element currently refers to, if any. -/
def currentElement (st : HandlerState) : Option OsmElement :=
  st.cur.bind (fun i => st.store[i]?)

/-- The elements list of the final response object, dereferencing the
shared element dicts. -/
def finalElements (st : HandlerState) : List (Option OsmElement) :=
  st.elementRefs.map (fun o => o.bind (fun i => st.store[i]?))

/-- The state before any SAX event. -/
def initState : HandlerState := ⟨[], [], none, []⟩

/-- Attribute coercion for node and way open tags: lat and lon to float,
id, uid, version and changeset to int, everything else stays a string.
None models the ValueError float() or int() raises on bad input. -/
def coerceNodeWay (k v : String) : Option AttrVal :=
  if k = "lat" ∨ k = "lon" then (pyFloat v).map AttrVal.float
  else if k = "id" ∨ k = "uid" ∨ k = "version" ∨ k = "changeset" then
    (pyInt v).map AttrVal.int
  else some (AttrVal.str v)

/-- Attribute coercion for relation open tags: only the integer fields are
coerced; lat and lon have no special treatment here in the source. -/
def coerceRelation (k v : String) : Option AttrVal :=
  if k = "id" ∨ k = "uid" ∨ k = "version" ∨ k = "changeset" then
    (pyInt v).map AttrVal.int
  else some (AttrVal.str v)

/-- Attribute coercion for member records: ref to int, rest strings. -/
def coerceMember (k v : String) : Option AttrVal :=
  if k = "ref" then (pyInt v).map AttrVal.int else some (AttrVal.str v)

/-- Coerce a whole attribute list, failing if any single coercion fails,
the model of the dict comprehensions raising on the first bad value. -/
def coerceAll (co : String → String → Option AttrVal) :
    List (String × String) → Option (List (String × AttrVal))
  | [] => some []
  | (k, v) :: rest =>
    match co k v, coerceAll co rest with
    | some a, some r => some ((k, a) :: r)
    | _, _ => none

/-- Apply a fallible update to the current element. When self._element is
None, Python raises TypeError on the subscription; modelled as an error. -/
def modifyCurrent (st : HandlerState) (f : OsmElement → Except String OsmElement) :
    Except String HandlerState :=
  match st.cur with
  | none => .error "TypeError"
  | some i =>
    match st.store[i]? with
    | none => .error "TypeError"
    | some e => (f e).map (fun e2 => { st with store := st.store.set i e2 })

/-- A SAX event: an open tag with its attributes, or a close tag. -/
inductive XmlEvent : Type
  | start (name : String) (attrs : List (String × String))
  | close (name : String)

/-- The step function of _OSMContentHandler: startElement and endElement
translated case by case, with evaluation order of the raising operations
preserved (the current element subscription is checked before the
attribute lookups in the nested cases, as in the Python expressions). -/
def processEvent (st : HandlerState) (ev : XmlEvent) : Except String HandlerState :=
  match ev with
  | .start name attrs =>
    if name = "osm" then
      let keep := attrs.filter (fun kv => decide (kv.1 = "version" ∨ kv.1 = "generator"))
      .ok { st with header := keep.foldl (fun h kv => upsert kv.1 kv.2 h) st.header }
    else if name = "node" ∨ name = "way" then
      match coerceAll coerceNodeWay attrs with
      | none => .error "ValueError"
      | some cas =>
        .ok { st with store := st.store ++ [⟨name, [], some [], none, cas⟩],
                      cur := some st.store.length }
    else if name = "relation" then
      match coerceAll coerceRelation attrs with
      | none => .error "ValueError"
      | some cas =>
        .ok { st with store := st.store ++ [⟨name, [], none, some [], cas⟩],
                      cur := some st.store.length }
    else if name = "tag" then
      modifyCurrent st (fun e =>
        match alookup "k" attrs, alookup "v" attrs with
        | some k, some v => .ok { e with tags := upsert k v e.tags }
        | _, _ => .error "KeyError")
    else if name = "nd" then
      modifyCurrent st (fun e =>
        match e.nodes with
        | none => .error "KeyError"
        | some ns =>
          match alookup "ref" attrs with
          | none => .error "KeyError"
          | some rv =>
            match pyInt rv with
            | none => .error "ValueError"
            | some r => .ok { e with nodes := some (ns ++ [r]) })
    else if name = "member" then
      modifyCurrent st (fun e =>
        match e.members with
        | none => .error "KeyError"
        | some ms =>
          match coerceAll coerceMember attrs with
          | none => .error "ValueError"
          | some mas => .ok { e with members := some (ms ++ [mas]) })
    else .ok st
  | .close name =>
    if name = "node" ∨ name = "way" ∨ name = "relation" then
      .ok { st with elementRefs := st.elementRefs ++ [st.cur] }
    else .ok st

/-- Run the handler over a whole event stream from the initial state. -/
def runEvents (evs : List XmlEvent) : Except String HandlerState :=
  evs.foldlM processEvent initState

/-! ## Way reconstruction

_get_unique_nodes_ordered_from_way builds a MultiDiGraph whose node
insertion order is the list of u values followed by the list of v values,
takes the largest weakly connected component, and topologically sorts it.
The networkx functions are external library code; topological_sort is
modelled by Kahn's algorithm, which realizes its contract (some valid
linearization of a DAG, NetworkXUnfeasible on a cycle), and the component
choice follows the spec for utils_graph.get_largest_component: the largest
weakly connected component, ties broken by the first discovered one. -/

/-- Node insertion order of the way multigraph: all u values then all v
values, as in list(df.u) + list(df.v). -/
def allNodes (edges : List (Int × Int)) : List Int :=
  edges.map Prod.fst ++ edges.map Prod.snd

/-- Whether two nodes are joined by an edge in either direction. -/
def adjacentUndir (edges : List (Int × Int)) (v w : Int) : Bool :=
  edges.any (fun e => decide ((e.1 = v ∧ e.2 = w) ∨ (e.1 = w ∧ e.2 = v)))

/-- One breadth step of undirected reachability: add every node adjacent
to the accumulated set. -/
def growComponent (edges : List (Int × Int)) (nodes acc : List Int) : List Int :=
  acc ++ nodes.filter (fun w => decide (w ∉ acc) && acc.any (fun v => adjacentUndir edges v w))

/-- The weakly connected component containing v, as a set of nodes,
obtained by iterating the breadth step as many times as there are nodes. -/
def componentContaining (edges : List (Int × Int)) (nodes : List Int) (v : Int) : List Int :=
  (growComponent edges nodes)^[nodes.length] [v]

/-- All weakly connected components in first-discovered order, each listed
in node insertion order (as a networkx subgraph view preserves). -/
def componentsGo (edges : List (Int × Int)) (nodes : List Int) :
    List Int → List Int → List (List Int)
  | [], _ => []
  | v :: rest, seen =>
    if v ∈ seen then componentsGo edges nodes rest seen
    else
      let c := componentContaining edges nodes v
      let cOrd := nodes.filter (fun w => decide (w ∈ c))
      cOrd :: componentsGo edges nodes rest (seen ++ cOrd)

/-- The weakly connected components of the way multigraph. -/
def componentsOf (edges : List (Int × Int)) (nodes : List Int) : List (List Int) :=
  componentsGo edges nodes nodes []

/-- Largest list among candidates, first maximum kept on ties, as Python
max with a length key behaves; empty input yields the empty list (a group
with no edges never reaches this point in the source, where max raises). -/
def largestOf : List (List Int) → List Int
  | [] => []
  | c :: cs => cs.foldl (fun best d => if d.length > best.length then d else best) c

/-- Modelled from the spec: utils_graph.get_largest_component with
strongly=False, whose source is outside this module, restricts a graph to
its largest weakly connected component, ties broken by the first
discovered component. -/
def largestComp (edges : List (Int × Int)) : List Int :=
  largestOf (componentsOf edges (dedupKeepFirst (allNodes edges)))

/-- The edges of the subgraph induced by a node set. -/
def subgraphEdges (comp : List Int) (edges : List (Int × Int)) : List (Int × Int) :=
  edges.filter (fun e => decide (e.1 ∈ comp) && decide (e.2 ∈ comp))

/-- Whether v has an incoming edge whose source is still unprocessed. -/
def hasInEdgeFrom (edges : List (Int × Int)) (rem : List Int) (v : Int) : Bool :=
  edges.any (fun e => decide (e.2 = v ∧ e.1 ∈ rem))

/-- Kahn's algorithm with explicit fuel: repeatedly emit a node of the
remaining set with no incoming edge from the remaining set. Models the
networkx topological_sort contract; none models NetworkXUnfeasible. -/
def kahnAux (edges : List (Int × Int)) : Nat → List Int → Option (List Int)
  | _, [] => some []
  | 0, _ :: _ => none
  | fuel + 1, v0 :: rest =>
    match (v0 :: rest).find? (fun v => !hasInEdgeFrom edges (v0 :: rest) v) with
    | none => none
    | some v => (kahnAux edges fuel ((v0 :: rest).erase v)).map (fun l => v :: l)

/-- Topological sort of the given nodes under the given edges. -/
def kahn (nodes : List Int) (edges : List (Int × Int)) : Option (List Int) :=
  kahnAux edges nodes.length nodes

/-- _get_unique_nodes_ordered_from_way: the ordered nodes of the largest
weakly connected component, together with the logged recovery report of
line 498 as a (recovered, total distinct) pair, emitted exactly when the
sorted component misses some distinct node of the group. The ValueError
arm models Python max raising on a graph with no nodes, and the
NetworkXUnfeasible arm models topological_sort finding a cycle. -/
def getUniqueNodesOrderedFromWay (edges : List (Int × Int)) :
    Except String (List Int × Option (Nat × Nat)) :=
  let nodesOrd := dedupKeepFirst (allNodes edges)
  if nodesOrd = [] then .error "ValueError"
  else
    let comp := largestComp edges
    match kahn comp (subgraphEdges comp edges) with
    | none => .error "NetworkXUnfeasible"
    | some l =>
      .ok (l, if l.length < nodesOrd.length then some (l.length, nodesOrd.length) else none)

/-- _append_nodes_as_edge_attrs, restricted to the node reference list it
emits: one edge gives its endpoints in order; otherwise sort the whole
group, and only on NetworkXUnfeasible retry on the group minus its first
edge with that edge's origin prepended. Any error of the retry (and any
non NetworkXUnfeasible error of the first sort) propagates, as the source
catches only nx.NetworkXUnfeasible and only around the first call. -/
def appendNodesAsEdgeAttrs (edges : List (Int × Int)) : Except String (List Int) :=
  match edges with
  | [(u, v)] => .ok [u, v]
  | [] => .error "IndexError"
  | e :: rest =>
    match getUniqueNodesOrderedFromWay (e :: rest) with
    | .ok p => .ok p.1
    | .error msg =>
      if msg = "NetworkXUnfeasible" then
        match getUniqueNodesOrderedFromWay rest with
        | .ok p => .ok (e.1 :: p.1)
        | .error m2 => .error m2
      else .error msg

/-! ## Oneway normalization

Lines 215 to 221 of _osm_xml.py: fill missing oneway values with the
caller default, stringify the column, then apply pandas str.replace
("False" to "no", a per-character substring replacement) followed by
Series.replace ("True" to "yes", a whole-value replacement). -/

/-- One cell of the oneway column before normalization: missing (NaN),
boolean, or string. Numeric cells are covered by first stringifying. -/
inductive OnewayCell : Type
  | na
  | bool (b : Bool)
  | str (s : String)
deriving DecidableEq

/-- Python str() of a boolean. -/
def pyBoolStr (b : Bool) : String := if b then "True" else "False"

/-- Whether pat is a prefix of l, by character comparison. -/
def isPre : List Char → List Char → Bool
  | [], _ => true
  | _ :: _, [] => false
  | a :: as, b :: bs => a == b && isPre as bs

/-- Whether pat occurs as a contiguous substring of l. -/
def containsSub (pat : List Char) : List Char → Bool
  | [] => isPre pat []
  | c :: rest => isPre pat (c :: rest) || containsSub pat rest

/-- Left to right non-overlapping substring replacement with fuel; each
step consumes at least one character so input length is enough fuel. -/
def replaceFuel (pat rep : List Char) : Nat → List Char → List Char
  | 0, l => l
  | _ + 1, [] => []
  | f + 1, c :: rest =>
    if isPre pat (c :: rest) && !pat.isEmpty then
      rep ++ replaceFuel pat rep f ((c :: rest).drop pat.length)
    else
      c :: replaceFuel pat rep f rest

/-- Model of pandas Series.str.replace with a literal pattern, which is
Python str.replace: every occurrence of the substring is replaced. -/
def pyStrReplace (pat rep s : String) : String :=
  ⟨replaceFuel pat.data rep.data s.data.length s.data⟩

/-- Model of pandas Series.replace with scalar arguments on one cell: a
whole-value replacement, not a substring one. -/
def seriesReplaceExact (pat rep s : String) : String :=
  if s = pat then rep else s

/-- The per-cell effect of lines 217 to 221: fillna with the default, then
astype(str), then substring replace False to no, then whole-value replace
True to yes. -/
def normalizeOnewayCell (c : OnewayCell) (dflt : Bool) : String :=
  let filled := match c with
    | .na => pyBoolStr dflt
    | .bool b => pyBoolStr b
    | .str s => s
  seriesReplaceExact "True" "yes" (pyStrReplace "False" "no" filled)

/-! ## Merged edge attribute aggregation (_append_merged_edge_attrs) -/

/-- An aggregation function name accepted by the writer. The source passes
the name string straight to pandas aggregate; only the aggregation the
spec exercises (sum, over an integer-valued column) is modelled. -/
inductive AggOp : Type
  | sum
deriving DecidableEq

/-- Apply an aggregation to a column of integers. -/
def evalAgg : AggOp → List Int → Int
  | .sum, l => l.foldl (· + ·) 0

/-- _append_merged_edge_attrs, returning the emitted (k, v) tag pairs in
order: with no aggregations declared, every requested tag present in the
stringified first row is copied; otherwise the non-aggregated present
tags are copied first, then each declared aggregation whose tag is a
column of the group table is computed over the whole group. -/
def appendMergedEdgeAttrs (edgeTags : List String) (sample : List (String × String))
    (cols : List (String × List Int)) (aggs : Option (List (String × AggOp))) :
    List (String × String) :=
  match aggs with
  | none => edgeTags.filterMap (fun t => (alookup t sample).map (fun v => (t, v)))
  | some ags =>
    (edgeTags.filterMap (fun t =>
      if decide (t ∈ ags.map Prod.fst) then none
      else (alookup t sample).map (fun v => (t, v))))
    ++ ags.filterMap (fun ta =>
      (alookup ta.1 cols).map (fun vals => (ta.1, toString (evalAgg ta.2 vals))))

/-! ## The writer (_save_graph_xml and helpers)

Pandas tables are modelled as lists of rows whose cells form an
association list from column name to a typed Cell; NaN is Cell.na and a
per-row astype(str) together with dropna is cellStr composed with
filterMap. The file system side (default path, mkdir, final byte
serialization) is I/O outside the shallow embedding; the model produces
the document value that gets serialized. graph_to_gdfs, used by the
MultiDiGraph branch, lives outside this module; a MultiDiGraph cannot
contain an edge referencing a missing node, so the writer model takes the
already tabular branch plus the invalid-type branch (the source raises
TypeError for anything else). -/

/-- A pandas cell. -/
inductive Cell : Type
  | na
  | int (n : Int)
  | rat (q : Rat)
  | str (s : String)
  | bool (b : Bool)
deriving DecidableEq

/-- astype(str) of one cell, none for NaN (dropna). Decimal rendering of
rationals stands in for Python float repr; no claim depends on it. -/
def cellStr : Cell → Option String
  | .na => none
  | .int n => some (toString n)
  | .rat q => some (toString q)
  | .str s => some s
  | .bool b => some (pyBoolStr b)

/-- One row of the node table before writing: the index (osmid) and the
coordinate columns x and y, plus any further tag columns. -/
structure NodeRow where
  osmid : Int
  x : Rat
  y : Rat
  cells : List (String × Cell)
deriving DecidableEq

/-- One row of the edge table before writing: the way grouping identifier
(the id column after the uniqueid handling of lines 199 to 204), the u and
v endpoint references, plus any further tag columns. -/
structure EdgeRow where
  wayId : Int
  u : Int
  v : Int
  cells : List (String × Cell)
deriving DecidableEq

/-- Round half to even at a given number of decimals, the rounding pandas
round applies to coordinates (idealized to exact decimal arithmetic). -/
def roundHalfEven (q : Rat) : Int :=
  let f : Int := ⌊q⌋
  let frac : Rat := q - (f : Rat)
  if frac < 1 / 2 then f
  else if 1 / 2 < frac then f + 1
  else if Even f then f else f + 1

/-- Coordinate rounding to a decimal precision. -/
def roundToPrec (p : Nat) (q : Rat) : Rat :=
  ((roundHalfEven (q * (10 : Rat) ^ p) : Rat)) / ((10 : Rat) ^ p)

/-- Lines 207 to 212: stamp the five synthetic provenance columns, in
source order uid, user, version, changeset, timestamp. -/
def stampProvenance (ts : String) (cs : List (String × Cell)) : List (String × Cell) :=
  upsert "timestamp" (Cell.str ts)
    (upsert "changeset" (Cell.str "1")
      (upsert "version" (Cell.str "1")
        (upsert "user" (Cell.str "OSMnx")
          (upsert "uid" (Cell.str "1") cs))))

/-- The full cell row of one node after renaming x and y to lon and lat,
rounding, reset_index (id column) and provenance stamping. -/
def nodeRowCells (p : Nat) (ts : String) (r : NodeRow) : List (String × Cell) :=
  stampProvenance ts
    ([("id", Cell.int r.osmid), ("lon", Cell.rat (roundToPrec p r.x)),
      ("lat", Cell.rat (roundToPrec p r.y))] ++ r.cells)

/-- The full cell row of one edge after reset_index and stamping. -/
def edgeRowCells (ts : String) (r : EdgeRow) : List (String × Cell) :=
  stampProvenance ts
    ([("id", Cell.int r.wayId), ("u", Cell.int r.u), ("v", Cell.int r.v)] ++ r.cells)

/-- row.dropna().astype(str): the stringified cells, NaN cells omitted. -/
def rowStr (cells : List (String × Cell)) : List (String × String) :=
  cells.filterMap (fun kc => (cellStr kc.2).map (fun s => (kc.1, s)))

/-- A oneway cell read back from a generic cell; numbers are stringified
as astype(str) would. -/
def cellToOneway : Option Cell → OnewayCell
  | none => .na
  | some .na => .na
  | some (.bool b) => .bool b
  | some (.str s) => .str s
  | some (.int n) => .str (toString n)
  | some (.rat q) => .str (toString q)

/-- Lines 215 to 221 applied to the edge table: only when the oneway
column exists (some row carries the key; absent keys in other rows are
NaN cells of that column) is every cell normalized to its wire string. -/
def normalizeEdgeOneway (dflt : Bool) (rows : List EdgeRow) : List EdgeRow :=
  if rows.any (fun r => (alookup "oneway" r.cells).isSome) then
    rows.map (fun r =>
      let w := Cell.str (normalizeOnewayCell (cellToOneway (alookup "oneway" r.cells)) dflt)
      { r with cells := upsert "oneway" w r.cells })
  else rows

/-- One emitted XML child of the root: a node element or a way element,
with its attribute pairs, its nd reference strings (ways), and its nested
tag elements as (k, v) pairs. -/
inductive XmlNode : Type
  | node (attrs : List (String × String)) (tags : List (String × String))
  | way (attrs : List (String × String)) (nds : List String) (tags : List (String × String))
deriving DecidableEq

/-- row_str[keys].to_dict(): select the listed attribute columns, raising
KeyError when a requested label is absent from the dropna-ed row, as
pandas label-list indexing does. -/
def selectAttrs (row : List (String × String)) (keys : List String) :
    Except String (List (String × String)) :=
  eachOk (fun k =>
    match alookup k row with
    | some v => .ok (k, v)
    | none => .error "KeyError") keys

/-- The nested tag elements for one row: each requested tag present in the
stringified row, in request order. -/
def rowTags (row : List (String × String)) (tagKeys : List String) :
    List (String × String) :=
  tagKeys.filterMap (fun t => (alookup t row).map (fun v => (t, v)))

/-- _append_nodes_xml_tree: one node element per node row. -/
def appendNodesXmlTree (rows : List NodeRow) (nodeAttrs nodeTags : List String)
    (p : Nat) (ts : String) : Except String (List XmlNode) :=
  eachOk (fun r =>
    let row := rowStr (nodeRowCells p ts r)
    match selectAttrs row nodeAttrs with
    | .error e => .error e
    | .ok attrs => .ok (XmlNode.node attrs (rowTags row nodeTags))) rows

/-- _create_way_for_each_edge: one way element per edge row, with exactly
the two endpoint references. -/
def createWayForEachEdge (rows : List EdgeRow) (edgeAttrs edgeTags : List String)
    (ts : String) : Except String (List XmlNode) :=
  eachOk (fun r =>
    let row := rowStr (edgeRowCells ts r)
    match selectAttrs row edgeAttrs with
    | .error e => .error e
    | .ok attrs =>
      match alookup "u" row, alookup "v" row with
      | some su, some sv => .ok (XmlNode.way attrs [su, sv] (rowTags row edgeTags))
      | _, _ => .error "KeyError") rows

/-- Insertion sort of integers, ascending. -/
def insertSorted (x : Int) : List Int → List Int
  | [] => [x]
  | y :: ys => if x ≤ y then x :: y :: ys else y :: insertSorted x ys

/-- Sorted distinct way identifiers: pandas groupby sorts group keys. -/
def sortedWayIds (rows : List EdgeRow) : List Int :=
  (dedupKeepFirst (rows.map EdgeRow.wayId)).foldl (fun acc i => insertSorted i acc) []

/-- The integer-valued columns of a way group, for aggregation: for every
column key of the group rows, the list of its integer cells. -/
def groupCols (ts : String) (group : List EdgeRow) : List (String × List Int) :=
  (dedupKeepFirst (group.flatMap (fun r => (edgeRowCells ts r).map Prod.fst))).map
    (fun t => (t, group.filterMap (fun r =>
      match alookup t (edgeRowCells ts r) with
      | some (Cell.int n) => some n
      | _ => none)))

/-- The merge branch of _append_edges_xml_tree: one way element per
distinct way identifier, attributes from the first group row, node
references from the way reconstructor, tags from the aggregator. -/
def appendEdgesMerged (rows : List EdgeRow) (edgeAttrs edgeTags : List String)
    (aggs : Option (List (String × AggOp))) (ts : String) :
    Except String (List XmlNode) :=
  eachOk (fun i =>
    match rows.filter (fun r => decide (r.wayId = i)) with
    | [] => .error "KeyError"
    | g0 :: grest =>
      let group := g0 :: grest
      let firstRow := rowStr (edgeRowCells ts g0)
      match selectAttrs firstRow edgeAttrs with
      | .error e => .error e
      | .ok attrs =>
        match appendNodesAsEdgeAttrs (group.map (fun r => (r.u, r.v))) with
        | .error e => .error e
        | .ok nds =>
          .ok (XmlNode.way attrs (nds.map toString)
            (appendMergedEdgeAttrs edgeTags firstRow (groupCols ts group) aggs)))
    (sortedWayIds rows)

/-- The caller-facing options of _save_graph_xml that shape the output. -/
structure WriterConfig where
  node_attrs : List String
  node_tags : List String
  edge_attrs : List String
  edge_tags : List String
  oneway : Bool
  merge_edges : Bool
  edge_tag_aggs : Option (List (String × AggOp))
  apiVersion : String
  precision : Nat
deriving DecidableEq

/-- The writer input: the tabular pair, or a value of any other type (for
which the source raises TypeError). The MultiDiGraph branch converts via
graph_to_gdfs into exactly such a pair. -/
inductive GraphInput : Type
  | tables (nodes : List NodeRow) (edges : List EdgeRow)
  | invalid
deriving DecidableEq

/-- The produced document: root attributes and children in emitted order. -/
structure OsmDocOut where
  rootAttrs : List (String × String)
  children : List XmlNode
deriving DecidableEq

/-- _save_graph_xml as a function to the document value it serializes:
dispatch on the input type, normalize the oneway column, then append all
node elements and all way elements under the root. The timestamp and
generator strings, produced outside this module, are parameters. -/
def saveGraphXml (data : GraphInput) (cfg : WriterConfig) (ts generator : String) :
    Except String OsmDocOut :=
  match data with
  | .invalid => .error "TypeError"
  | .tables ns es =>
    let es2 := normalizeEdgeOneway cfg.oneway es
    match appendNodesXmlTree ns cfg.node_attrs cfg.node_tags cfg.precision ts with
    | .error e => .error e
    | .ok nodeElems =>
      match (if cfg.merge_edges then
               appendEdgesMerged es2 cfg.edge_attrs cfg.edge_tags cfg.edge_tag_aggs ts
             else
               createWayForEachEdge es2 cfg.edge_attrs cfg.edge_tags ts) with
      | .error e => .error e
      | .ok wayElems =>
        .ok ⟨[("version", cfg.apiVersion), ("generator", generator)],
             nodeElems ++ wayElems⟩

/-- The attribute columns guaranteed present and non null in every
written node row: the id and coordinate columns built by the renaming and
reset_index steps plus the five stamped provenance columns. -/
def nodeGuaranteedAttrs : List String :=
  ["id", "lon", "lat", "uid", "user", "version", "changeset", "timestamp"]

/-- The attribute columns guaranteed present and non null in every
written edge row. -/
def edgeGuaranteedAttrs : List String :=
  ["id", "u", "v", "uid", "user", "version", "changeset", "timestamp"]

/-! ## Properties of the topological sort model -/

/-- A node list admits a topological order under the given edges: some
permutation lists every edge source before its target and no listed node
carries a self loop. -/
def TopoOrderableOn (nodes : List Int) (edges : List (Int × Int)) : Prop :=
  ∃ l : List Int, l.Perm nodes ∧ l.Pairwise (fun a b => (b, a) ∉ edges) ∧
    ∀ a ∈ l, (a, a) ∉ edges

theorem find?_isSome_of_ex {α : Type} (p : α → Bool) :
    ∀ (l : List α), (∃ x ∈ l, p x = true) → (l.find? p).isSome = true := by
  intro l h
  induction l with
  | nil => rcases h with ⟨x, hx, _⟩; cases hx
  | cons a l ih =>
    rw [List.find?]
    cases hpa : p a with
    | true => rfl
    | false =>
      rcases h with ⟨x, hx, hpx⟩
      rcases List.mem_cons.mp hx with rfl | hxl
      · rw [hpa] at hpx; cases hpx
      · exact ih ⟨x, hxl, hpx⟩

theorem dedupKeepFirstAux_nodup {α : Type} [DecidableEq α] :
    ∀ (l seen : List α), (dedupKeepFirstAux seen l).Nodup ∧
      ∀ x ∈ dedupKeepFirstAux seen l, x ∉ seen := by
  intro l
  induction l with
  | nil => intro seen; simp [dedupKeepFirstAux]
  | cons a l ih =>
    intro seen
    rw [dedupKeepFirstAux]
    by_cases ha : a ∈ seen
    · simp only [if_pos ha]; exact ih seen
    · simp only [if_neg ha]
      rcases ih (a :: seen) with ⟨hnd, hnotin⟩
      constructor
      · refine List.nodup_cons.mpr ⟨fun hmem => ?_, hnd⟩
        exact hnotin a hmem (List.mem_cons_self a seen)
      · intro x hx
        rcases List.mem_cons.mp hx with rfl | hxl
        · exact ha
        · intro hxs
          exact hnotin x hxl (List.mem_cons_of_mem a hxs)

theorem dedupKeepFirst_nodup {α : Type} [DecidableEq α] (l : List α) :
    (dedupKeepFirst l).Nodup :=
  (dedupKeepFirstAux_nodup l []).1

theorem dedupKeepFirst_ne_nil {α : Type} [DecidableEq α] :
    ∀ (l : List α), l ≠ [] → dedupKeepFirst l ≠ [] := by
  intro l h
  cases l with
  | nil => exact absurd rfl h
  | cons a l => simp [dedupKeepFirst, dedupKeepFirstAux]

theorem componentsGo_nodup (edges : List (Int × Int)) (nodes : List Int)
    (hn : nodes.Nodup) :
    ∀ (l seen : List Int) (c : List Int), c ∈ componentsGo edges nodes l seen → c.Nodup := by
  intro l
  induction l with
  | nil => intro seen c hc; cases hc
  | cons v rest ih =>
    intro seen c hc
    rw [componentsGo] at hc
    by_cases hv : v ∈ seen
    · rw [if_pos hv] at hc; exact ih seen c hc
    · rw [if_neg hv] at hc
      rcases List.mem_cons.mp hc with rfl | htail
      · exact hn.filter _
      · exact ih _ c htail

theorem largestOf_mem_or_nil :
    ∀ (cs : List (List Int)) (b : List Int),
      cs.foldl (fun best d => if d.length > best.length then d else best) b = b ∨
      cs.foldl (fun best d => if d.length > best.length then d else best) b ∈ cs := by
  intro cs
  induction cs with
  | nil => intro b; left; rfl
  | cons c cs ih =>
    intro b
    rw [List.foldl_cons]
    rcases ih (if c.length > b.length then c else b) with h | h
    · rw [h]
      by_cases hc : c.length > b.length
      · right; rw [if_pos hc]; exact List.mem_cons_self c cs
      · left; rw [if_neg hc]
    · right; exact List.mem_cons_of_mem c h

theorem largestComp_nodup (edges : List (Int × Int)) : (largestComp edges).Nodup := by
  unfold largestComp
  cases hc : componentsOf edges (dedupKeepFirst (allNodes edges)) with
  | nil => simp only [largestOf]; exact List.nodup_nil
  | cons c cs =>
    simp only [largestOf]
    rcases largestOf_mem_or_nil cs c with h | h
    · rw [h]
      have : c ∈ componentsOf edges (dedupKeepFirst (allNodes edges)) := by
        rw [hc]; exact List.mem_cons_self c cs
      exact componentsGo_nodup edges _ (dedupKeepFirst_nodup _) _ _ _ this
    · have hmem : cs.foldl (fun best d => if d.length > best.length then d else best) c ∈
          componentsOf edges (dedupKeepFirst (allNodes edges)) := by
        rw [hc]; exact List.mem_cons_of_mem c h
      exact componentsGo_nodup edges _ (dedupKeepFirst_nodup _) _ _ _ hmem

theorem hasInEdgeFrom_eq_false_iff (edges : List (Int × Int)) (rem : List Int) (v : Int) :
    hasInEdgeFrom edges rem v = false ↔ ∀ u : Int, (u, v) ∈ edges → u ∉ rem := by
  unfold hasInEdgeFrom
  rw [← Bool.not_eq_true, List.any_eq_true]
  constructor
  · intro h u huv hurem
    exact h ⟨(u, v), huv, by simp [hurem]⟩
  · rintro h ⟨e, he, hpe⟩
    rw [decide_eq_true_eq] at hpe
    rcases hpe with ⟨h2, h1⟩
    have : (e.1, v) ∈ edges := by
      have : e = (e.1, e.2) := rfl
      rw [this, h2] at he; exact he
    exact h e.1 this h1

theorem kahnAux_sound (edges : List (Int × Int)) :
    ∀ (fuel : Nat) (rem l : List Int), kahnAux edges fuel rem = some l →
      l.Perm rem ∧ l.Pairwise (fun a b => (b, a) ∉ edges) ∧ ∀ a ∈ l, (a, a) ∉ edges := by
  intro fuel
  induction fuel with
  | zero =>
    intro rem l h
    cases rem with
    | nil =>
      rw [kahnAux] at h
      cases h
      exact ⟨List.Perm.refl [], List.Pairwise.nil, by intro a ha; cases ha⟩
    | cons v0 rest => rw [kahnAux] at h; cases h
  | succ f ih =>
    intro rem l h
    cases rem with
    | nil =>
      rw [kahnAux] at h
      cases h
      exact ⟨List.Perm.refl [], List.Pairwise.nil, by intro a ha; cases ha⟩
    | cons v0 rest =>
      rw [kahnAux] at h
      cases hf : (v0 :: rest).find? (fun v => !hasInEdgeFrom edges (v0 :: rest) v) with
      | none =>
        rw [hf] at h
        exact absurd h (by simp)
      | some v =>
        rw [hf] at h
        have h2 : Option.map (fun l => v :: l) (kahnAux edges f ((v0 :: rest).erase v)) =
            some l := h
        cases hk : kahnAux edges f ((v0 :: rest).erase v) with
        | none => rw [hk] at h2; exact absurd h2 (by simp)
        | some l2 =>
          rw [hk] at h2
          simp only [Option.map_some'] at h2
          injection h2 with h3
          subst h3
          have hv : v ∈ v0 :: rest := List.mem_of_find?_eq_some hf
          have hpv : hasInEdgeFrom edges (v0 :: rest) v = false := by
            have := List.find?_some hf
            rwa [Bool.not_eq_true'] at this
          have hnoin := (hasInEdgeFrom_eq_false_iff edges (v0 :: rest) v).mp hpv
          rcases ih ((v0 :: rest).erase v) l2 hk with ⟨hperm, hpw, hsl⟩
          refine ⟨?_, ?_, ?_⟩
          · exact (hperm.cons v).trans (List.perm_cons_erase hv).symm
          · refine List.pairwise_cons.mpr ⟨?_, hpw⟩
            intro b hb hbv
            have hbrem : b ∈ v0 :: rest :=
              (List.erase_sublist v (v0 :: rest)).mem (hperm.mem_iff.mp hb)
            exact hnoin b hbv hbrem
          · intro a ha
            rcases List.mem_cons.mp ha with rfl | hal
            · intro havv
              exact hnoin a havv hv
            · exact hsl a hal

theorem kahnAux_complete (edges : List (Int × Int)) :
    ∀ (fuel : Nat) (rem : List Int), rem.length ≤ fuel → rem.Nodup →
      TopoOrderableOn rem edges → (kahnAux edges fuel rem).isSome = true := by
  intro fuel
  induction fuel with
  | zero =>
    intro rem hlen _ _
    cases rem with
    | nil => rw [kahnAux]; rfl
    | cons v0 rest => simp at hlen
  | succ f ih =>
    intro rem hlen hnd hord
    cases rem with
    | nil => rw [kahnAux]; rfl
    | cons v0 rest =>
      rcases hord with ⟨l, hperm, hpw, hsl⟩
      have hlcons : l ≠ [] := by
        intro hnil
        have := hperm.length_eq
        rw [hnil] at this
        simp at this
      cases l with
      | nil => exact absurd rfl hlcons
      | cons x l2 =>
        have hx : x ∈ v0 :: rest := hperm.subset (List.mem_cons_self x l2)
        have hpx : hasInEdgeFrom edges (v0 :: rest) x = false := by
          rw [hasInEdgeFrom_eq_false_iff]
          intro u hux hurem
          have hul : u ∈ x :: l2 := hperm.mem_iff.mpr hurem
          rcases List.mem_cons.mp hul with rfl | hul2
          · exact hsl u (List.mem_cons_self u l2) hux
          · exact (List.pairwise_cons.mp hpw).1 u hul2 hux
        have hfind : ((v0 :: rest).find?
            (fun v => !hasInEdgeFrom edges (v0 :: rest) v)).isSome = true := by
          apply find?_isSome_of_ex
          exact ⟨x, hx, by rw [Bool.not_eq_true', hpx]⟩
        rw [kahnAux]
        cases hf : (v0 :: rest).find? (fun v => !hasInEdgeFrom edges (v0 :: rest) v) with
        | none => rw [hf] at hfind; cases hfind
        | some v =>
          have hvmem : v ∈ v0 :: rest := List.mem_of_find?_eq_some hf
          have hrec : (kahnAux edges f ((v0 :: rest).erase v)).isSome = true := by
            apply ih
            · have := List.length_erase_of_mem hvmem
              rw [this]
              have : rest.length + 1 ≤ f + 1 := hlen
              omega
            · exact hnd.erase v
            · refine ⟨(x :: l2).erase v, hperm.erase v, ?_, ?_⟩
              · exact hpw.sublist (List.erase_sublist v (x :: l2))
              · intro a ha
                exact hsl a ((List.erase_sublist v (x :: l2)).mem ha)
          cases hk : kahnAux edges f ((v0 :: rest).erase v) with
          | none => rw [hk] at hrec; exact absurd hrec (by simp)
          | some l3 =>
            show (Option.map (fun l => v :: l)
              (kahnAux edges f ((v0 :: rest).erase v))).isSome = true
            rw [hk]
            rfl

theorem kahn_complete (nodes : List Int) (edges : List (Int × Int))
    (hnd : nodes.Nodup) (h : TopoOrderableOn nodes edges) :
    (kahn nodes edges).isSome = true :=
  kahnAux_complete edges nodes.length nodes (Nat.le_refl _) hnd h

theorem kahn_sound (nodes : List Int) (edges : List (Int × Int)) (l : List Int)
    (h : kahn nodes edges = some l) :
    l.Perm nodes ∧ l.Pairwise (fun a b => (b, a) ∉ edges) ∧ ∀ a ∈ l, (a, a) ∉ edges :=
  kahnAux_sound edges nodes.length nodes l h

theorem getUnique_eq (edges : List (Int × Int)) :
    getUniqueNodesOrderedFromWay edges =
      if dedupKeepFirst (allNodes edges) = [] then .error "ValueError"
      else
        match kahn (largestComp edges) (subgraphEdges (largestComp edges) edges) with
        | none => .error "NetworkXUnfeasible"
        | some l =>
          .ok (l, if l.length < (dedupKeepFirst (allNodes edges)).length then
                    some (l.length, (dedupKeepFirst (allNodes edges)).length)
                  else none) := rfl

theorem allNodes_ne_nil (edges : List (Int × Int)) (h : edges ≠ []) :
    allNodes edges ≠ [] := by
  cases edges with
  | nil => exact absurd rfl h
  | cons e rest => simp [allNodes]

theorem getUnique_ok_of_orderable (edges : List (Int × Int)) (hne : edges ≠ [])
    (h : TopoOrderableOn (largestComp edges) (subgraphEdges (largestComp edges) edges)) :
    exOk (getUniqueNodesOrderedFromWay edges) = true := by
  have hnods : dedupKeepFirst (allNodes edges) ≠ [] :=
    dedupKeepFirst_ne_nil _ (allNodes_ne_nil edges hne)
  rw [getUnique_eq, if_neg hnods]
  have hsome := kahn_complete (largestComp edges) (subgraphEdges (largestComp edges) edges)
    (largestComp_nodup edges) h
  cases hk : kahn (largestComp edges) (subgraphEdges (largestComp edges) edges) with
  | none => rw [hk] at hsome; exact absurd hsome (by simp)
  | some l => rfl

theorem getUnique_error_msg (edges : List (Int × Int)) (msg : String) (hne : edges ≠ [])
    (h : getUniqueNodesOrderedFromWay edges = .error msg) : msg = "NetworkXUnfeasible" := by
  have hnods : dedupKeepFirst (allNodes edges) ≠ [] :=
    dedupKeepFirst_ne_nil _ (allNodes_ne_nil edges hne)
  rw [getUnique_eq, if_neg hnods] at h
  cases hk : kahn (largestComp edges) (subgraphEdges (largestComp edges) edges) with
  | none =>
    rw [hk] at h
    have h2 : (Except.error "NetworkXUnfeasible" :
        Except String (List Int × Option (Nat × Nat))) = .error msg := h
    injection h2 with h3
    exact h3.symm
  | some l =>
    rw [hk] at h
    have h2 : (Except.ok (l, if l.length < (dedupKeepFirst (allNodes edges)).length then
        some (l.length, (dedupKeepFirst (allNodes edges)).length) else none) :
        Except String (List Int × Option (Nat × Nat))) = .error msg := h
    cases h2

theorem getUnique_sound (edges : List (Int × Int)) (l : List Int) (rep : Option (Nat × Nat))
    (h : getUniqueNodesOrderedFromWay edges = .ok (l, rep)) :
    l.Perm (largestComp edges) ∧
    l.Pairwise (fun a b => (b, a) ∉ subgraphEdges (largestComp edges) edges) ∧
    ∀ a ∈ l, (a, a) ∉ subgraphEdges (largestComp edges) edges := by
  rw [getUnique_eq] at h
  by_cases hcond : dedupKeepFirst (allNodes edges) = []
  · rw [if_pos hcond] at h
    cases h
  · rw [if_neg hcond] at h
    cases hk : kahn (largestComp edges) (subgraphEdges (largestComp edges) edges) with
    | none =>
      rw [hk] at h
      have h2 : (Except.error "NetworkXUnfeasible" :
          Except String (List Int × Option (Nat × Nat))) = .ok (l, rep) := h
      cases h2
    | some l2 =>
      rw [hk] at h
      have h2 : (Except.ok (l2, if l2.length < (dedupKeepFirst (allNodes edges)).length then
          some (l2.length, (dedupKeepFirst (allNodes edges)).length) else none) :
          Except String (List Int × Option (Nat × Nat))) = .ok (l, rep) := h
      injection h2 with h3
      have h4 : l2 = l := congrArg Prod.fst h3
      subst h4
      exact kahn_sound _ _ _ hk

/-! ## Claim theorems -/

/-- C1, counterexample. The claim states that for the way group
[(1,2), (2,3), (10,11), (11,12), (12,13)] the reconstructor returns the
node sequence [1, 2, 3] and reports 3 of 5 nodes recovered. It does not:
the component with nodes 10 to 13 is the larger one. -/
theorem c1_counterexample :
    ¬ (exGet? (getUniqueNodesOrderedFromWay [(1, 2), (2, 3), (10, 11), (11, 12), (12, 13)]) =
       some ([1, 2, 3], some (3, 5))) := by
  decide

/-- C1, amended. For the way group [(1,2), (2,3), (10,11), (11,12),
(12,13)] the reconstructor returns the node sequence [10, 11, 12, 13],
the nodes of the largest weakly connected component (four nodes against
three), and reports that 4 of the 7 total distinct nodes were
recovered. -/
theorem c1_amended :
    getUniqueNodesOrderedFromWay [(1, 2), (2, 3), (10, 11), (11, 12), (12, 13)] =
      .ok ([10, 11, 12, 13], some (4, 7)) := by
  rfl

/-- C2, counterexample. The claim states that way reconstruction never
raises for any way group including cyclic ones. For the cyclic group
[(1,2), (2,3), (3,2)] both the first sort and the fallback sort on the
group minus its first edge fail, and the second failure escapes the
reconstruction uncaught. -/
theorem c2_counterexample :
    exOk (appendNodesAsEdgeAttrs [(1, 2), (2, 3), (3, 2)]) = false ∧
    appendNodesAsEdgeAttrs [(1, 2), (2, 3), (3, 2)] = .error "NetworkXUnfeasible" :=
  ⟨rfl, rfl⟩

/-- C2, amended. Way reconstruction returns without raising whenever the
largest weakly connected component of the nonempty way group admits a
topological order, or, failing that, whenever the largest component of
the group minus its first edge does; only when both sorts fail does the
sort exception escape uncaught. -/
theorem c2_amended (edges : List (Int × Int)) (hne : edges ≠ [])
    (h : TopoOrderableOn (largestComp edges) (subgraphEdges (largestComp edges) edges) ∨
         TopoOrderableOn (largestComp edges.tail)
           (subgraphEdges (largestComp edges.tail) edges.tail)) :
    exOk (appendNodesAsEdgeAttrs edges) = true := by
  cases edges with
  | nil => exact absurd rfl hne
  | cons e rest =>
    cases rest with
    | nil => rfl
    | cons e2 rest2 =>
      show exOk (match getUniqueNodesOrderedFromWay (e :: e2 :: rest2) with
        | .ok p => .ok p.1
        | .error msg =>
          if msg = "NetworkXUnfeasible" then
            match getUniqueNodesOrderedFromWay (e2 :: rest2) with
            | .ok p => .ok (e.1 :: p.1)
            | .error m2 => .error m2
          else .error msg) = true
      cases hg : getUniqueNodesOrderedFromWay (e :: e2 :: rest2) with
      | ok p => rfl
      | error msg =>
        have hmsg : msg = "NetworkXUnfeasible" :=
          getUnique_error_msg (e :: e2 :: rest2) msg (by simp) hg
        subst hmsg
        show exOk (if ("NetworkXUnfeasible" : String) = "NetworkXUnfeasible" then
            match getUniqueNodesOrderedFromWay (e2 :: rest2) with
            | .ok p => .ok (e.1 :: p.1)
            | .error m2 => .error m2
          else .error "NetworkXUnfeasible") = true
        rw [if_pos rfl]
        rcases h with horder | horder
        · have := getUnique_ok_of_orderable (e :: e2 :: rest2) (by simp) horder
          rw [hg] at this
          exact absurd this (by simp [exOk])
        · have htail := getUnique_ok_of_orderable (e2 :: rest2) (by simp) horder
          cases hg2 : getUniqueNodesOrderedFromWay (e2 :: rest2) with
          | ok p2 => rfl
          | error m2 =>
            rw [hg2] at htail
            exact absurd htail (by simp [exOk])

/-- C2, witness for the amended theorem at the chain [(1,2), (2,3)],
whose largest component 1, 2, 3 admits the topological order
[1, 2, 3]. -/
theorem c2_witness : exOk (appendNodesAsEdgeAttrs [(1, 2), (2, 3)]) = true :=
  c2_amended [(1, 2), (2, 3)] (by decide)
    (Or.inl ⟨[1, 2, 3], by decide, by decide, by decide⟩)

/-- C3, counterexample. The claim states that the reconstructor first
sorts the whole group graph and, whenever that succeeds, uses the order
over all the group's nodes. For the weakly disconnected acyclic group
[(1,2), (10,11)] the whole graph admits a topological sort, yet the
reconstructor returns only [1, 2]: node 10 of the group is missing, so
the full-graph order is not what is used. -/
theorem c3_counterexample :
    (kahn (dedupKeepFirst (allNodes [(1, 2), (10, 11)])) [(1, 2), (10, 11)]).isSome = true ∧
    appendNodesAsEdgeAttrs [(1, 2), (10, 11)] = .ok [1, 2] ∧
    ¬ ((10 : Int) ∈ ([1, 2] : List Int)) :=
  ⟨rfl, rfl, by decide⟩

/-- C3, amended. The reconstructor unconditionally restricts to the
largest weakly connected component before sorting: every sequence it
returns is a permutation of exactly that component's nodes and
topologically orders the component subgraph, so all of the group's nodes
are covered only when the group is weakly connected. -/
theorem c3_amended (edges : List (Int × Int)) (l : List Int) (rep : Option (Nat × Nat))
    (h : getUniqueNodesOrderedFromWay edges = .ok (l, rep)) :
    l.Perm (largestComp edges) ∧
    l.Pairwise (fun a b => (b, a) ∉ subgraphEdges (largestComp edges) edges) ∧
    ∀ a ∈ l, (a, a) ∉ subgraphEdges (largestComp edges) edges :=
  getUnique_sound edges l rep h

/-- C3, witness for the amended theorem at the chain [(1,2), (2,3)]. -/
theorem c3_witness :
    ([1, 2, 3] : List Int).Perm (largestComp [(1, 2), (2, 3)]) ∧
    ([1, 2, 3] : List Int).Pairwise
      (fun a b => (b, a) ∉ subgraphEdges (largestComp [(1, 2), (2, 3)]) [(1, 2), (2, 3)]) ∧
    ∀ a ∈ ([1, 2, 3] : List Int),
      (a, a) ∉ subgraphEdges (largestComp [(1, 2), (2, 3)]) [(1, 2), (2, 3)] :=
  c3_amended [(1, 2), (2, 3)] [1, 2, 3] none rfl

/-- C9. For a way group with exactly one edge (u, v), the reconstructed
node reference sequence is exactly [u, v]. -/
theorem c9_single_edge (u v : Int) : appendNodesAsEdgeAttrs [(u, v)] = .ok [u, v] :=
  rfl

theorem replaceFuel_eq_of_not_contains (pat rep : List Char) :
    ∀ (f : Nat) (l : List Char), containsSub pat l = false → replaceFuel pat rep f l = l := by
  intro f
  induction f with
  | zero => intro l _; rfl
  | succ f ih =>
    intro l hl
    cases l with
    | nil => rfl
    | cons c cs =>
      rw [containsSub] at hl
      rcases Bool.or_eq_false_iff.mp hl with ⟨hpre, hrest⟩
      rw [replaceFuel, hpre]
      rw [ih cs hrest]
      simp

/-- C5, counterexample. The claim states that every unrecognized string
value of the oneway column is left untouched. The string value xFalsey is
neither a boolean nor a recognized wire value, yet the substring
replacement turns it into xnoy. -/
theorem c5_counterexample :
    normalizeOnewayCell (OnewayCell.str "xFalsey") false = "xnoy" ∧
    ("xnoy" : String) ≠ "xFalsey" :=
  ⟨rfl, by decide⟩

/-- C5, amended. Missing oneway values are filled with the caller default
and booleans map to yes and no as claimed; but string values are only
left untouched when they do not contain False as a substring and are not
the exact string True: each occurrence of the substring False is replaced
by no, and a whole-cell True becomes yes. -/
theorem c5_amended :
    (∀ d : Bool, normalizeOnewayCell .na d = (if d then "yes" else "no")) ∧
    (∀ b d : Bool, normalizeOnewayCell (.bool b) d = (if b then "yes" else "no")) ∧
    (∀ (s : String) (d : Bool), containsSub "False".data s.data = false → s ≠ "True" →
      normalizeOnewayCell (.str s) d = s) := by
  refine ⟨?_, ?_, ?_⟩
  · intro d; cases d <;> rfl
  · intro b d; cases b <;> rfl
  · intro s d hc ht
    show seriesReplaceExact "True" "yes" (pyStrReplace "False" "no" s) = s
    have h1 : pyStrReplace "False" "no" s = s := by
      unfold pyStrReplace
      rw [replaceFuel_eq_of_not_contains _ _ _ _ hc]
    rw [h1]
    unfold seriesReplaceExact
    rw [if_neg ht]

/-- C5, witness for the amended theorem: the string reversible contains
no False substring and is untouched. -/
theorem c5_witness : normalizeOnewayCell (OnewayCell.str "reversible") false = "reversible" :=
  c5_amended.2.2 "reversible" false (by decide) (by decide)

/-- C6. Merging a way group whose length column holds [10, 15, 25] with a
declared sum aggregation emits a length tag of 50 (after the requested
tags without an aggregation, copied from the first edge); any requested
tag without a declared aggregation and present in the first row is copied
verbatim; an aggregation declared for a tag that is not a column of the
group's edge table emits no tag with that key. -/
theorem c6_aggregation :
    (appendMergedEdgeAttrs ["name", "length"] [("name", "A"), ("length", "10")]
       [("length", [10, 15, 25])] (some [("length", AggOp.sum)]) =
       [("name", "A"), ("length", "50")]) ∧
    (∀ (edgeTags : List String) (sample : List (String × String))
       (cols : List (String × List Int)) (ags : List (String × AggOp)) (t v : String),
       t ∈ edgeTags → alookup t sample = some v → ¬ (t ∈ ags.map Prod.fst) →
       (t, v) ∈ appendMergedEdgeAttrs edgeTags sample cols (some ags)) ∧
    (∀ (edgeTags : List String) (sample : List (String × String))
       (cols : List (String × List Int)) (ags : List (String × AggOp)) (t : String) (op : AggOp),
       (t, op) ∈ ags → alookup t cols = none →
       ¬ (t ∈ (appendMergedEdgeAttrs edgeTags sample cols (some ags)).map Prod.fst)) := by
  refine ⟨rfl, ?_, ?_⟩
  · intro edgeTags sample cols ags t v ht hl hna
    show (t, v) ∈ _ ++ _
    apply List.mem_append_left
    apply List.mem_filterMap.mpr
    refine ⟨t, ht, ?_⟩
    rw [if_neg (by simpa using hna), hl]
    rfl
  · intro edgeTags sample cols ags t op hta hcols hmem
    have htkey : t ∈ ags.map Prod.fst := by
      apply List.mem_map.mpr
      exact ⟨(t, op), hta, rfl⟩
    rw [appendMergedEdgeAttrs] at hmem
    rw [List.map_append, List.mem_append] at hmem
    rcases hmem with hmem | hmem
    · rcases List.mem_map.mp hmem with ⟨pair, hpair, hfst⟩
      rcases List.mem_filterMap.mp hpair with ⟨t2, _, hf⟩
      by_cases hcond : t2 ∈ ags.map Prod.fst
      · rw [if_pos (by simpa using hcond)] at hf
        cases hf
      · rw [if_neg (by simpa using hcond)] at hf
        rcases Option.map_eq_some'.mp hf with ⟨v2, _, hv2⟩
        have : pair.1 = t2 := by rw [← hv2]
        rw [hfst] at this
        rw [← this] at hcond
        exact hcond htkey
    · rcases List.mem_map.mp hmem with ⟨pair, hpair, hfst⟩
      rcases List.mem_filterMap.mp hpair with ⟨ta, hta2, hf⟩
      rcases Option.map_eq_some'.mp hf with ⟨vals, hvals, hv⟩
      have : pair.1 = ta.1 := by rw [← hv]
      rw [hfst] at this
      rw [this] at hcols
      rw [hcols] at hvals
      cases hvals

/-- C6, witness: the second and third conjuncts applied at concrete
inputs, a verbatim-copied tag and an aggregation over a missing column. -/
theorem c6_witness :
    (("name", "A") ∈
      appendMergedEdgeAttrs ["name"] [("name", "A")] [] (some [("length", AggOp.sum)])) ∧
    ¬ ("width" ∈ (appendMergedEdgeAttrs ["name"] [("name", "A")] []
      (some [("width", AggOp.sum)])).map Prod.fst) :=
  ⟨c6_aggregation.2.1 ["name"] [("name", "A")] [] [("length", AggOp.sum)] "name" "A"
     (by decide) (by decide) (by decide),
   c6_aggregation.2.2 ["name"] [("name", "A")] [] [("width", AggOp.sum)] "width" AggOp.sum
     (by decide) (by decide)⟩

theorem coerceAll_lookup (co : String → String → Option AttrVal) :
    ∀ (attrs : List (String × String)) (out : List (String × AttrVal)) (k v : String),
      coerceAll co attrs = some out → alookup k attrs = some v →
      alookup k out = co k v := by
  intro attrs
  induction attrs with
  | nil =>
    intro out k v _ hl
    cases hl
  | cons kv rest ih =>
    intro out k v hco hl
    rcases kv with ⟨k2, v2⟩
    rw [coerceAll] at hco
    cases hco1 : co k2 v2 with
    | none => rw [hco1] at hco; cases hco
    | some a =>
      rw [hco1] at hco
      cases hco2 : coerceAll co rest with
      | none => rw [hco2] at hco; cases hco
      | some r =>
        rw [hco2] at hco
        have hout : (k2, a) :: r = out := by injection hco
        rw [← hout]
        rw [alookup] at hl
        rw [alookup]
        by_cases hk2 : k2 = k
        · rw [if_pos hk2] at hl
          rw [if_pos hk2]
          injection hl with hl2
          rw [hk2] at hco1
          rw [hl2] at hco1
          rw [hco1]
        · rw [if_neg hk2] at hl
          rw [if_neg hk2]
          exact ih r k v hco2 hl

theorem coerceAll_fail (co : String → String → Option AttrVal) :
    ∀ (attrs : List (String × String)) (k v : String),
      alookup k attrs = some v → co k v = none → coerceAll co attrs = none := by
  intro attrs
  induction attrs with
  | nil =>
    intro k v hl
    cases hl
  | cons kv rest ih =>
    intro k v hl hbad
    rcases kv with ⟨k2, v2⟩
    rw [alookup] at hl
    rw [coerceAll]
    by_cases hk2 : k2 = k
    · rw [if_pos hk2] at hl
      injection hl with hl2
      rw [hk2, hl2, hbad]
    · rw [if_neg hk2] at hl
      rw [ih k v hl hbad]
      cases co k2 v2 <;> rfl

theorem currentElement_push (l : List OsmElement) (e : OsmElement)
    (refs : List (Option Nat)) (hdr : List (String × String)) :
    currentElement ⟨l ++ [e], refs, some l.length, hdr⟩ = some e := by
  unfold currentElement
  simp

theorem modifyCurrent_none (st : HandlerState) (f : OsmElement → Except String OsmElement)
    (h : st.cur = none) : modifyCurrent st f = .error "TypeError" := by
  unfold modifyCurrent
  rw [h]

theorem processEvent_start_build (st : HandlerState) (name : String)
    (attrs : List (String × String)) (hn : name = "node" ∨ name = "way") :
    processEvent st (.start name attrs) =
      (match coerceAll coerceNodeWay attrs with
       | none => Except.error "ValueError"
       | some cas =>
         Except.ok (⟨st.store ++ [⟨name, [], some [], none, cas⟩], st.elementRefs,
           some st.store.length, st.header⟩ : HandlerState)) := by
  rcases hn with rfl | rfl <;> rfl

theorem processEvent_start_relation (st : HandlerState) (attrs : List (String × String)) :
    processEvent st (.start "relation" attrs) =
      (match coerceAll coerceRelation attrs with
       | none => Except.error "ValueError"
       | some cas =>
         Except.ok (⟨st.store ++ [⟨"relation", [], none, some [], cas⟩], st.elementRefs,
           some st.store.length, st.header⟩ : HandlerState)) :=
  rfl

/-- C7, counterexample. The claim states that for every open tag an
attribute named lat is coerced to floating point. On a relation open tag
a lat attribute stays a string: only the integer coercions run there. -/
theorem c7_counterexample :
    ((exGet? (runEvents [XmlEvent.start "relation" [("id", "3"), ("lat", "1.5")]])).bind
        currentElement =
      some ⟨"relation", [], none, some [],
        [("id", AttrVal.int 3), ("lat", AttrVal.str "1.5")]⟩) ∧
    ∀ q : Rat, AttrVal.str "1.5" ≠ AttrVal.float q := by
  constructor
  · rfl
  · intro q h
    cases h

/-- C7, amended. On node and way open tags every attribute is coerced per
coerceNodeWay (lat and lon to float, id, uid, version and changeset to
int, the rest kept as strings), and a value rejected by the numeric
coercion makes the whole event fail hard with a ValueError; on relation
open tags the coercion is coerceRelation, which runs only the integer
conversions, so a lat attribute stays a string there. -/
theorem c7_amended :
    (∀ (name : String) (st : HandlerState) (attrs : List (String × String))
       (st2 : HandlerState) (e : OsmElement) (k v : String),
       name = "node" ∨ name = "way" →
       processEvent st (.start name attrs) = .ok st2 →
       currentElement st2 = some e →
       alookup k attrs = some v →
       alookup k e.attrs = coerceNodeWay k v) ∧
    (∀ (st : HandlerState) (attrs : List (String × String))
       (st2 : HandlerState) (e : OsmElement) (k v : String),
       processEvent st (.start "relation" attrs) = .ok st2 →
       currentElement st2 = some e →
       alookup k attrs = some v →
       alookup k e.attrs = coerceRelation k v) ∧
    (∀ (name : String) (st : HandlerState) (attrs : List (String × String)) (k v : String),
       name = "node" ∨ name = "way" →
       alookup k attrs = some v → coerceNodeWay k v = none →
       processEvent st (.start name attrs) = .error "ValueError") := by
  refine ⟨?_, ?_, ?_⟩
  · intro name st attrs st2 e k v hn h hcur hk
    rw [processEvent_start_build st name attrs hn] at h
    cases hco : coerceAll coerceNodeWay attrs with
    | none => rw [hco] at h; cases h
    | some cas =>
      rw [hco] at h
      have h3 : (⟨st.store ++ [⟨name, [], some [], none, cas⟩], st.elementRefs,
          some st.store.length, st.header⟩ : HandlerState) = st2 := by
        injection h
      rw [← h3, currentElement_push] at hcur
      injection hcur with h4
      rw [← h4]
      exact coerceAll_lookup coerceNodeWay attrs cas k v hco hk
  · intro st attrs st2 e k v h hcur hk
    rw [processEvent_start_relation st attrs] at h
    cases hco : coerceAll coerceRelation attrs with
    | none => rw [hco] at h; cases h
    | some cas =>
      rw [hco] at h
      have h3 : (⟨st.store ++ [⟨"relation", [], none, some [], cas⟩], st.elementRefs,
          some st.store.length, st.header⟩ : HandlerState) = st2 := by
        injection h
      rw [← h3, currentElement_push] at hcur
      injection hcur with h4
      rw [← h4]
      exact coerceAll_lookup coerceRelation attrs cas k v hco hk
  · intro name st attrs k v hn hk hbad
    rw [processEvent_start_build st name attrs hn]
    rw [coerceAll_fail coerceNodeWay attrs k v hk hbad]

/-- C7, witness for the amended theorem: a relation open tag with a lat
attribute whose value stays the string 1.5, applied through the second
conjunct of the amended theorem. -/
theorem c7_witness :
    alookup "lat" (OsmElement.attrs
        ⟨"relation", [], none, some [], [("id", AttrVal.int 3), ("lat", AttrVal.str "1.5")]⟩) =
      coerceRelation "lat" "1.5" :=
  c7_amended.2.1 initState [("id", "3"), ("lat", "1.5")]
    ⟨[⟨"relation", [], none, some [], [("id", AttrVal.int 3), ("lat", AttrVal.str "1.5")]⟩],
     [], some 0, []⟩
    ⟨"relation", [], none, some [], [("id", AttrVal.int 3), ("lat", AttrVal.str "1.5")]⟩
    "lat" "1.5" rfl rfl rfl

theorem alookup_upsert_self {α : Type} (k : String) (v : α) :
    ∀ cs : List (String × α), alookup k (upsert k v cs) = some v := by
  intro cs
  induction cs with
  | nil =>
    rw [upsert, alookup, if_pos rfl]
  | cons kv rest ih =>
    rcases kv with ⟨k3, v3⟩
    rw [upsert]
    by_cases h3 : k3 = k
    · rw [if_pos h3, alookup, if_pos rfl]
    · rw [if_neg h3, alookup, if_neg h3]
      exact ih

theorem alookup_upsert_ne {α : Type} (k k2 : String) (v : α) (h : k2 ≠ k) :
    ∀ cs : List (String × α), alookup k (upsert k2 v cs) = alookup k cs := by
  intro cs
  induction cs with
  | nil => simp [upsert, alookup, h]
  | cons kv rest ih =>
    rcases kv with ⟨k3, v3⟩
    by_cases h3 : k3 = k2
    · subst h3
      simp [upsert, alookup, h]
    · by_cases h4 : k3 = k
      · subst h4
        simp [upsert, alookup, h3]
      · simp [upsert, alookup, h3, h4, ih]

theorem alookup_rowStr (k : String) (c : Cell) (s : String) (hs : cellStr c = some s) :
    ∀ cells : List (String × Cell), alookup k cells = some c →
      alookup k (rowStr cells) = some s := by
  intro cells
  induction cells with
  | nil => intro hc; cases hc
  | cons kc rest ih =>
    intro hc
    rcases kc with ⟨k2, c2⟩
    rw [alookup] at hc
    rw [rowStr, List.filterMap_cons]
    by_cases h2 : k2 = k
    · rw [if_pos h2] at hc
      injection hc with hc2
      rw [hc2, hs]
      simp only [Option.map_some']
      rw [alookup, if_pos h2]
    · rw [if_neg h2] at hc
      cases hcs : cellStr c2 with
      | none =>
        simp only [Option.map_none']
        exact ih hc
      | some s2 =>
        simp only [Option.map_some']
        rw [alookup, if_neg h2]
        exact ih hc

theorem rowStr_guaranteed_node (p : Nat) (ts : String) (r : NodeRow) :
    ∀ k ∈ nodeGuaranteedAttrs, (alookup k (rowStr (nodeRowCells p ts r))).isSome = true := by
  intro k hk
  have hbase : ∀ (c : Cell) (s : String), alookup k (nodeRowCells p ts r) = some c →
      cellStr c = some s → (alookup k (rowStr (nodeRowCells p ts r))).isSome = true := by
    intro c s hc hs
    rw [alookup_rowStr k c s hs _ hc]
    rfl
  simp only [nodeGuaranteedAttrs, List.mem_cons, List.not_mem_nil, or_false] at hk
  rcases hk with rfl | rfl | rfl | rfl | rfl | rfl | rfl | rfl
  · refine hbase (Cell.int r.osmid) (toString r.osmid) ?_ rfl
    unfold nodeRowCells stampProvenance
    rw [alookup_upsert_ne _ _ _ (by decide), alookup_upsert_ne _ _ _ (by decide),
        alookup_upsert_ne _ _ _ (by decide), alookup_upsert_ne _ _ _ (by decide),
        alookup_upsert_ne _ _ _ (by decide)]
    rfl
  · refine hbase (Cell.rat (roundToPrec p r.x)) (toString (roundToPrec p r.x)) ?_ rfl
    unfold nodeRowCells stampProvenance
    rw [alookup_upsert_ne _ _ _ (by decide), alookup_upsert_ne _ _ _ (by decide),
        alookup_upsert_ne _ _ _ (by decide), alookup_upsert_ne _ _ _ (by decide),
        alookup_upsert_ne _ _ _ (by decide)]
    rfl
  · refine hbase (Cell.rat (roundToPrec p r.y)) (toString (roundToPrec p r.y)) ?_ rfl
    unfold nodeRowCells stampProvenance
    rw [alookup_upsert_ne _ _ _ (by decide), alookup_upsert_ne _ _ _ (by decide),
        alookup_upsert_ne _ _ _ (by decide), alookup_upsert_ne _ _ _ (by decide),
        alookup_upsert_ne _ _ _ (by decide)]
    rfl
  · refine hbase (Cell.str "1") "1" ?_ rfl
    unfold nodeRowCells stampProvenance
    rw [alookup_upsert_ne _ _ _ (by decide), alookup_upsert_ne _ _ _ (by decide),
        alookup_upsert_ne _ _ _ (by decide), alookup_upsert_ne _ _ _ (by decide)]
    exact alookup_upsert_self _ _ _
  · refine hbase (Cell.str "OSMnx") "OSMnx" ?_ rfl
    unfold nodeRowCells stampProvenance
    rw [alookup_upsert_ne _ _ _ (by decide), alookup_upsert_ne _ _ _ (by decide),
        alookup_upsert_ne _ _ _ (by decide)]
    exact alookup_upsert_self _ _ _
  · refine hbase (Cell.str "1") "1" ?_ rfl
    unfold nodeRowCells stampProvenance
    rw [alookup_upsert_ne _ _ _ (by decide), alookup_upsert_ne _ _ _ (by decide)]
    exact alookup_upsert_self _ _ _
  · refine hbase (Cell.str "1") "1" ?_ rfl
    unfold nodeRowCells stampProvenance
    rw [alookup_upsert_ne _ _ _ (by decide)]
    exact alookup_upsert_self _ _ _
  · refine hbase (Cell.str ts) ts ?_ rfl
    unfold nodeRowCells stampProvenance
    exact alookup_upsert_self _ _ _

theorem rowStr_guaranteed_edge (ts : String) (r : EdgeRow) :
    ∀ k ∈ edgeGuaranteedAttrs, (alookup k (rowStr (edgeRowCells ts r))).isSome = true := by
  intro k hk
  have hbase : ∀ (c : Cell) (s : String), alookup k (edgeRowCells ts r) = some c →
      cellStr c = some s → (alookup k (rowStr (edgeRowCells ts r))).isSome = true := by
    intro c s hc hs
    rw [alookup_rowStr k c s hs _ hc]
    rfl
  simp only [edgeGuaranteedAttrs, List.mem_cons, List.not_mem_nil, or_false] at hk
  rcases hk with rfl | rfl | rfl | rfl | rfl | rfl | rfl | rfl
  · refine hbase (Cell.int r.wayId) (toString r.wayId) ?_ rfl
    unfold edgeRowCells stampProvenance
    rw [alookup_upsert_ne _ _ _ (by decide), alookup_upsert_ne _ _ _ (by decide),
        alookup_upsert_ne _ _ _ (by decide), alookup_upsert_ne _ _ _ (by decide),
        alookup_upsert_ne _ _ _ (by decide)]
    rfl
  · refine hbase (Cell.int r.u) (toString r.u) ?_ rfl
    unfold edgeRowCells stampProvenance
    rw [alookup_upsert_ne _ _ _ (by decide), alookup_upsert_ne _ _ _ (by decide),
        alookup_upsert_ne _ _ _ (by decide), alookup_upsert_ne _ _ _ (by decide),
        alookup_upsert_ne _ _ _ (by decide)]
    rfl
  · refine hbase (Cell.int r.v) (toString r.v) ?_ rfl
    unfold edgeRowCells stampProvenance
    rw [alookup_upsert_ne _ _ _ (by decide), alookup_upsert_ne _ _ _ (by decide),
        alookup_upsert_ne _ _ _ (by decide), alookup_upsert_ne _ _ _ (by decide),
        alookup_upsert_ne _ _ _ (by decide)]
    rfl
  · refine hbase (Cell.str "1") "1" ?_ rfl
    unfold edgeRowCells stampProvenance
    rw [alookup_upsert_ne _ _ _ (by decide), alookup_upsert_ne _ _ _ (by decide),
        alookup_upsert_ne _ _ _ (by decide), alookup_upsert_ne _ _ _ (by decide)]
    exact alookup_upsert_self _ _ _
  · refine hbase (Cell.str "OSMnx") "OSMnx" ?_ rfl
    unfold edgeRowCells stampProvenance
    rw [alookup_upsert_ne _ _ _ (by decide), alookup_upsert_ne _ _ _ (by decide),
        alookup_upsert_ne _ _ _ (by decide)]
    exact alookup_upsert_self _ _ _
  · refine hbase (Cell.str "1") "1" ?_ rfl
    unfold edgeRowCells stampProvenance
    rw [alookup_upsert_ne _ _ _ (by decide), alookup_upsert_ne _ _ _ (by decide)]
    exact alookup_upsert_self _ _ _
  · refine hbase (Cell.str "1") "1" ?_ rfl
    unfold edgeRowCells stampProvenance
    rw [alookup_upsert_ne _ _ _ (by decide)]
    exact alookup_upsert_self _ _ _
  · refine hbase (Cell.str ts) ts ?_ rfl
    unfold edgeRowCells stampProvenance
    exact alookup_upsert_self _ _ _

theorem eachOk_isOk {ε α β : Type} (f : α → Except ε β) :
    ∀ l : List α, (∀ a ∈ l, exOk (f a) = true) → exOk (eachOk f l) = true := by
  intro l
  induction l with
  | nil => intro _; rfl
  | cons a rest ih =>
    intro h
    rw [eachOk]
    cases hfa : f a with
    | error e =>
      have h2 := h a (List.mem_cons_self a rest)
      rw [hfa] at h2
      simp [exOk] at h2
    | ok b =>
      cases hrest : eachOk f rest with
      | error e =>
        have h2 := ih (fun x hx => h x (List.mem_cons_of_mem a hx))
        rw [hrest] at h2
        simp [exOk] at h2
      | ok bs => rfl

theorem selectAttrs_isOk (row : List (String × String)) :
    ∀ keys : List String, (∀ k ∈ keys, (alookup k row).isSome = true) →
      exOk (selectAttrs row keys) = true := by
  intro keys h
  apply eachOk_isOk
  intro k hk
  have h2 := h k hk
  cases hl : alookup k row with
  | none => rw [hl] at h2; cases h2
  | some v => rfl

theorem appendNodesXmlTree_isOk (rows : List NodeRow) (nodeAttrs nodeTags : List String)
    (p : Nat) (ts : String) (h : ∀ k ∈ nodeAttrs, k ∈ nodeGuaranteedAttrs) :
    exOk (appendNodesXmlTree rows nodeAttrs nodeTags p ts) = true := by
  apply eachOk_isOk
  intro r _
  have hsel : exOk (selectAttrs (rowStr (nodeRowCells p ts r)) nodeAttrs) = true :=
    selectAttrs_isOk _ _ (fun k hk => rowStr_guaranteed_node p ts r k (h k hk))
  cases hs : selectAttrs (rowStr (nodeRowCells p ts r)) nodeAttrs with
  | error e => rw [hs] at hsel; simp [exOk] at hsel
  | ok attrs =>
    show exOk (match selectAttrs (rowStr (nodeRowCells p ts r)) nodeAttrs with
      | .error e => Except.error e
      | .ok attrs => Except.ok (XmlNode.node attrs
          (rowTags (rowStr (nodeRowCells p ts r)) nodeTags))) = true
    rw [hs]
    rfl

theorem createWayForEachEdge_isOk (rows : List EdgeRow) (edgeAttrs edgeTags : List String)
    (ts : String) (h : ∀ k ∈ edgeAttrs, k ∈ edgeGuaranteedAttrs) :
    exOk (createWayForEachEdge rows edgeAttrs edgeTags ts) = true := by
  apply eachOk_isOk
  intro r _
  have hsel : exOk (selectAttrs (rowStr (edgeRowCells ts r)) edgeAttrs) = true :=
    selectAttrs_isOk _ _ (fun k hk => rowStr_guaranteed_edge ts r k (h k hk))
  have hu : (alookup "u" (rowStr (edgeRowCells ts r))).isSome = true :=
    rowStr_guaranteed_edge ts r "u" (by decide)
  have hv : (alookup "v" (rowStr (edgeRowCells ts r))).isSome = true :=
    rowStr_guaranteed_edge ts r "v" (by decide)
  cases hs : selectAttrs (rowStr (edgeRowCells ts r)) edgeAttrs with
  | error e => rw [hs] at hsel; simp [exOk] at hsel
  | ok attrs =>
    cases hlu : alookup "u" (rowStr (edgeRowCells ts r)) with
    | none => rw [hlu] at hu; cases hu
    | some su =>
      cases hlv : alookup "v" (rowStr (edgeRowCells ts r)) with
      | none => rw [hlv] at hv; cases hv
      | some sv =>
        show exOk (match selectAttrs (rowStr (edgeRowCells ts r)) edgeAttrs with
          | .error e => Except.error e
          | .ok attrs =>
            match alookup "u" (rowStr (edgeRowCells ts r)),
                  alookup "v" (rowStr (edgeRowCells ts r)) with
            | some su, some sv => Except.ok (XmlNode.way attrs [su, sv]
                (rowTags (rowStr (edgeRowCells ts r)) edgeTags))
            | _, _ => Except.error "KeyError") = true
        rw [hs, hlu, hlv]
        rfl

/-- C4, counterexample. The claim states the writer fails with
InvalidInputError whenever an edge endpoint references a node absent from
the node table and that no output is produced. With a node table holding
only node 1 and an edge (1, 2), the writer succeeds and produces a
document: no referential check exists in the source. -/
theorem c4_counterexample :
    exOk (saveGraphXml (GraphInput.tables [⟨1, 0, 0, []⟩] [⟨0, 1, 2, []⟩])
      ⟨nodeGuaranteedAttrs, ["highway"], edgeGuaranteedAttrs, ["highway", "oneway"],
       false, false, none, "0.6", 7⟩ "T" "G") = true ∧
    ¬ ((2 : Int) ∈ ([⟨1, 0, 0, []⟩] : List NodeRow).map NodeRow.osmid) :=
  ⟨rfl, by decide⟩

/-- C4, amended. The writer performs no referential integrity check: with
merging disabled it succeeds on every tabular input whose requested
attribute columns are among the guaranteed ones, no matter which nodes
the edges reference; the only input validation is the TypeError raised
when the data is neither a graph nor a table pair, and no
InvalidInputError exists in the source. -/
theorem c4_amended (ns : List NodeRow) (es : List EdgeRow) (cfg : WriterConfig)
    (ts gen : String) (hm : cfg.merge_edges = false)
    (hna : ∀ k ∈ cfg.node_attrs, k ∈ nodeGuaranteedAttrs)
    (hea : ∀ k ∈ cfg.edge_attrs, k ∈ edgeGuaranteedAttrs) :
    exOk (saveGraphXml (GraphInput.tables ns es) cfg ts gen) = true ∧
    saveGraphXml GraphInput.invalid cfg ts gen = .error "TypeError" := by
  constructor
  · have hnodes := appendNodesXmlTree_isOk ns cfg.node_attrs cfg.node_tags cfg.precision ts hna
    have hways := createWayForEachEdge_isOk (normalizeEdgeOneway cfg.oneway es)
      cfg.edge_attrs cfg.edge_tags ts hea
    show exOk (match appendNodesXmlTree ns cfg.node_attrs cfg.node_tags cfg.precision ts with
      | .error e => Except.error e
      | .ok nodeElems =>
        match (if cfg.merge_edges then
                 appendEdgesMerged (normalizeEdgeOneway cfg.oneway es) cfg.edge_attrs
                   cfg.edge_tags cfg.edge_tag_aggs ts
               else
                 createWayForEachEdge (normalizeEdgeOneway cfg.oneway es) cfg.edge_attrs
                   cfg.edge_tags ts) with
        | .error e => Except.error e
        | .ok wayElems =>
          Except.ok (⟨[("version", cfg.apiVersion), ("generator", gen)],
            nodeElems ++ wayElems⟩ : OsmDocOut)) = true
    rw [hm]
    cases hn : appendNodesXmlTree ns cfg.node_attrs cfg.node_tags cfg.precision ts with
    | error e => rw [hn] at hnodes; simp [exOk] at hnodes
    | ok nelems =>
      cases hw : createWayForEachEdge (normalizeEdgeOneway cfg.oneway es) cfg.edge_attrs
          cfg.edge_tags ts with
      | error e => rw [hw] at hways; simp [exOk] at hways
      | ok welems =>
        simp only [hn, hw]
        rfl
  · rfl

/-- C4, witness for the amended theorem at a concrete dangling-reference
input with merging disabled. -/
theorem c4_witness :
    exOk (saveGraphXml (GraphInput.tables [⟨7, 0, 0, []⟩] [⟨0, 7, 8, []⟩])
      ⟨["id", "lat", "lon"], [], ["id", "u", "v"], [], true, false, none, "0.6", 7⟩
      "T" "G") = true ∧
    saveGraphXml GraphInput.invalid
      ⟨["id", "lat", "lon"], [], ["id", "u", "v"], [], true, false, none, "0.6", 7⟩
      "T" "G" = .error "TypeError" :=
  c4_amended [⟨7, 0, 0, []⟩] [⟨0, 7, 8, []⟩]
    ⟨["id", "lat", "lon"], [], ["id", "u", "v"], [], true, false, none, "0.6", 7⟩
    "T" "G" rfl (by decide) (by decide)

/-- C8, counterexample. The claim states that a tag element with no open
node, way or relation context raises a ParseError immediately and is
never applied to an already completed element. After a node is closed the
handler keeps the reference to it, so a following orphan tag is accepted
without error and silently mutates the node already appended to the
output elements list. -/
theorem c8_counterexample :
    exOk (runEvents [XmlEvent.start "node" [("id", "1")], XmlEvent.close "node",
        XmlEvent.start "tag" [("k", "foo"), ("v", "bar")]]) = true ∧
    (exGet? (runEvents [XmlEvent.start "node" [("id", "1")], XmlEvent.close "node",
        XmlEvent.start "tag" [("k", "foo"), ("v", "bar")]])).map finalElements =
      some [some ⟨"node", [("foo", "bar")], some [], none, [("id", AttrVal.int 1)]⟩] :=
  ⟨rfl, rfl⟩

/-- C8, amended. A tag, nd or member open tag arriving while the current
element reference is still unset fails hard (with a TypeError, not a
ParseError); but once an element has been completed, the handler keeps
referring to it, so a subsequent orphan tag is silently applied to the
already appended element instead of raising. -/
theorem c8_amended :
    (∀ (st : HandlerState) (name : String) (attrs : List (String × String)),
       name = "tag" ∨ name = "nd" ∨ name = "member" → st.cur = none →
       processEvent st (.start name attrs) = .error "TypeError") ∧
    (exGet? (runEvents [XmlEvent.start "node" [("id", "1")], XmlEvent.close "node",
        XmlEvent.start "tag" [("k", "foo"), ("v", "bar")]])).map finalElements =
      some [some ⟨"node", [("foo", "bar")], some [], none, [("id", AttrVal.int 1)]⟩] := by
  constructor
  · intro st name attrs hn hcur
    rcases hn with rfl | rfl | rfl
    · exact modifyCurrent_none st _ hcur
    · exact modifyCurrent_none st _ hcur
    · exact modifyCurrent_none st _ hcur
  · rfl

/-- C8, witness for the amended theorem: an orphan tag as the very first
event fails with a TypeError. -/
theorem c8_witness :
    processEvent initState (.start "tag" [("k", "a"), ("v", "b")]) = .error "TypeError" :=
  c8_amended.1 initState "tag" [("k", "a"), ("v", "b")] (Or.inl rfl) rfl

/-- C10. Every element built for a node open tag carries, besides its
coerced attributes, an empty tags map and a nodes field initialized to
the empty sequence, the same record shape a way element starts with. -/
theorem c10_node_shape :
    ∀ (name : String) (st : HandlerState) (attrs : List (String × String))
      (st2 : HandlerState) (e : OsmElement),
      name = "node" ∨ name = "way" →
      processEvent st (.start name attrs) = .ok st2 →
      currentElement st2 = some e →
      e.etype = name ∧ e.tags = [] ∧ e.nodes = some [] := by
  intro name st attrs st2 e hn h hcur
  rw [processEvent_start_build st name attrs hn] at h
  cases hco : coerceAll coerceNodeWay attrs with
  | none => rw [hco] at h; cases h
  | some cas =>
    rw [hco] at h
    have h3 : (⟨st.store ++ [⟨name, [], some [], none, cas⟩], st.elementRefs,
        some st.store.length, st.header⟩ : HandlerState) = st2 := by
      injection h
    rw [← h3, currentElement_push] at hcur
    injection hcur with h4
    rw [← h4]
    exact ⟨rfl, rfl, rfl⟩

/-- C10, witness: a node opened with an id attribute yields an element
whose type is node, whose tags map is empty and whose nodes field is the
empty sequence. -/
theorem c10_witness :
    OsmElement.etype ⟨"node", [], some [], none, [("id", AttrVal.int 5)]⟩ = "node" ∧
    OsmElement.tags ⟨"node", [], some [], none, [("id", AttrVal.int 5)]⟩ = [] ∧
    OsmElement.nodes ⟨"node", [], some [], none, [("id", AttrVal.int 5)]⟩ = some [] :=
  c10_node_shape "node" initState [("id", "5")]
    ⟨[⟨"node", [], some [], none, [("id", AttrVal.int 5)]⟩], [], some 0, []⟩
    ⟨"node", [], some [], none, [("id", AttrVal.int 5)]⟩ (Or.inl rfl) rfl rfl

end OsmXml
